import Mathlib

/-!
Verification of the graph tensor-algebra utilities in
`Graph_TimeSeries_Forecasting/spektral_utilities.py`.

The module is a thin layer over a dense/sparse tensor engine.  We shallowly
embed it over exact real arithmetic: a rank-2 array is a `Mat` (dimensions
plus a total entry function, read only inside the dimension bounds), a rank-3
array is a `Ten3`, and a runtime tensor value is an `Arr` — a rank-2 or rank-3
payload together with the engine's sparsity flag.  Fallible engine primitives
(shape-mismatched products, reshape with an uninferable `-1`, tuple-unpacking
of a shape) return `Option`; `none` models a raised engine error.

Floating-point rounding is idealised to exact reals.  The one IEEE effect the
source relies on — `np.power(0., k) = +inf` for `k < 0`, subsequently clamped
to `0.` by `degree_power` — is modelled explicitly by tracking an infinity
flag (`NF`), not by the Lean value of `0 ^ k`.
-/

namespace Spektral

noncomputable section

open Classical

/-- A dense rank-2 numeric array: row and column counts plus an entry
function.  Entries at indices outside `rows × cols` are irrelevant; all
operations and comparisons only read indices in range. -/
structure Mat where
  rows : ℕ
  cols : ℕ
  entry : ℕ → ℕ → ℝ

/-- A rank-3 numeric array of shape `(d0, d1, d2)`. -/
structure Ten3 where
  d0 : ℕ
  d1 : ℕ
  d2 : ℕ
  entry : ℕ → ℕ → ℕ → ℝ

/-- Payload of a runtime tensor value: rank 2 or rank 3. -/
inductive AVal where
  | r2 (m : Mat)
  | r3 (t : Ten3)

/-- A runtime tensor value: a payload plus the engine's sparsity flag
(`K.is_sparse` / `isinstance(a, tf.SparseTensor)` / `sp.issparse`).  Sparse
and dense values represent the same abstract array; the flag records the
representation the engine would use. -/
structure Arr where
  sparse : Bool
  val : AVal

/-- Number of axes of a value, as reported by `K.ndim` / `.ndim`. -/
def Arr.ndim (a : Arr) : ℕ :=
  match a.val with
  | .r2 _ => 2
  | .r3 _ => 3

/-- Extensional equality of rank-2 arrays on the in-range region. -/
def Mat.EqOn (a b : Mat) : Prop :=
  a.rows = b.rows ∧ a.cols = b.cols ∧
    ∀ i j, i < a.rows → j < a.cols → a.entry i j = b.entry i j

/-- Matrix product guarded by the engine's inner-dimension check: `none`
models the shape error numpy / TF raise on `a.cols ≠ b.rows`. -/
def Mat.mul (a b : Mat) : Option Mat :=
  if a.cols = b.rows then
    some ⟨a.rows, b.cols, fun i k => ∑ j ∈ Finset.range a.cols, a.entry i j * b.entry j k⟩
  else none

/-- Elementwise sum, guarded by numpy's shape check (broadcasting between
equal shapes only, which is the only case the source exercises). -/
def Mat.add (a b : Mat) : Option Mat :=
  if a.rows = b.rows ∧ a.cols = b.cols then
    some ⟨a.rows, a.cols, fun i j => a.entry i j + b.entry i j⟩
  else none

/-- Swap of the two axes of a rank-2 array (`perm = (1, 0)`). -/
def Mat.transposed (a : Mat) : Mat :=
  ⟨a.cols, a.rows, fun i j => a.entry j i⟩

/-- Identity matrix, `np.eye(n)` / `sp.eye(n)`. -/
def eye (n : ℕ) : Mat :=
  ⟨n, n, fun i j => if i = j then 1 else 0⟩

/-- Slice `t[i]` of a rank-3 array. -/
def Ten3.slice (t : Ten3) (i : ℕ) : Mat :=
  ⟨t.d1, t.d2, fun j k => t.entry i j k⟩

/-- Result of the slice assignment `t[i] = m` (the caller must separately
guard that `m` has shape `(d1, d2)`, as numpy does). -/
def Ten3.setSlice (t : Ten3) (i : ℕ) (m : Mat) : Ten3 :=
  ⟨t.d0, t.d1, t.d2, fun a j k => if a = i then m.entry j k else t.entry a j k⟩

/-- `tf.transpose(b, perm=(1, 2, 0))`: output axis `i` is input axis
`perm[i]`, so the result has shape `(d1, d2, d0)` and
`out[x, y, z] = in[z, x, y]`. -/
def Ten3.transpose120 (t : Ten3) : Ten3 :=
  ⟨t.d1, t.d2, t.d0, fun x y z => t.entry z x y⟩

/-- `tf.transpose(b, perm=(2, 0, 1))`: the result has shape `(d2, d0, d1)`
and `out[x, y, z] = in[y, z, x]`. -/
def Ten3.transpose201 (t : Ten3) : Ten3 :=
  ⟨t.d2, t.d0, t.d1, fun x y z => t.entry y z x⟩

/-- Innermost-two-axes transpose of a rank-3 array, as requested by the
`transpose_a` / `transpose_b` flags of a batched matmul. -/
def Ten3.mT (t : Ten3) : Ten3 :=
  ⟨t.d0, t.d2, t.d1, fun n i j => t.entry n j i⟩

/-- Row-major element of a rank-3 array at a flat index. -/
def Ten3.flat (t : Ten3) (p : ℕ) : ℝ :=
  t.entry (p / (t.d1 * t.d2)) (p / t.d2 % t.d1) (p % t.d2)

/-- Row-major element of a rank-2 array at a flat index. -/
def Mat.flat (m : Mat) (p : ℕ) : ℝ :=
  m.entry (p / m.cols) (p % m.cols)

/-- Batched matrix product of two rank-3 arrays, guarded by the engine's
batch-size and inner-dimension checks. -/
def Ten3.bmm (x y : Ten3) : Option Ten3 :=
  if x.d0 = y.d0 ∧ x.d2 = y.d1 then
    some ⟨x.d0, x.d1, y.d2,
      fun n i k => ∑ j ∈ Finset.range x.d2, x.entry n i j * y.entry n j k⟩
  else none

/-! ### `transpose` (source lines 16–31)

The source function dispatches on sparsity (which is representation-neutral
here) and defaults `perm` to `(1, 0)`.  We embed the default-permutation
call: for a rank-2 value this swaps the axes; for a rank-3 value
`tf.transpose` rejects a length-2 permutation, modelled as `none`. -/

def transpose (a : Arr) : Option Arr :=
  match a.val with
  | .r2 m => some ⟨a.sparse, .r2 m.transposed⟩
  | .r3 _ => none

/-! ### `reshape` (source lines 34–47)

The source wraps the engine's reshape.  The two call sites (both inside
`mixed_mode_dot`) are `reshape(x, (r, -1))` on a rank-3 value and
`reshape(x, (r0, r1, -1))` on a rank-2 value, so we embed those two shapes.
The engine infers `-1` as `total / known` and raises when the product of the
known dimensions is zero or does not divide the total element count. -/

/-- `reshape(t, (r, -1))` of a rank-3 array, row-major. -/
def reshape3to2 (t : Ten3) (r : ℕ) : Option Mat :=
  if r ≠ 0 ∧ r ∣ t.d0 * t.d1 * t.d2 then
    some ⟨r, t.d0 * t.d1 * t.d2 / r, fun i m => t.flat (i * (t.d0 * t.d1 * t.d2 / r) + m)⟩
  else none

/-- `reshape(m, (r0, r1, -1))` of a rank-2 array, row-major. -/
def reshape2to3 (m : Mat) (r0 r1 : ℕ) : Option Ten3 :=
  if r0 * r1 ≠ 0 ∧ r0 * r1 ∣ m.rows * m.cols then
    some ⟨r0, r1, m.rows * m.cols / (r0 * r1),
      fun i j k =>
        m.flat (i * (r1 * (m.rows * m.cols / (r0 * r1)))
          + (j * (m.rows * m.cols / (r0 * r1)) + k))⟩
  else none

/-! ### `autodetect_mode` (source lines 50–70) -/

def SINGLE : ℤ := 1
def MIXED : ℤ := 2
def iMIXED : ℤ := 3
def BATCH : ℤ := 4
def UNKNOWN : ℤ := -1

/-- Mode of operation from the two operands' ranks (`K.ndim a`, `K.ndim b`);
the source reads nothing else of the operands.  The nested conditionals
mirror the source's control flow, including the shared fall-through
`return UNKNOWN`. -/
def autodetect_mode (a_dim b_dim : ℕ) : ℤ :=
  if b_dim = 2 then
    if a_dim = 2 then SINGLE
    else if a_dim = 3 then iMIXED
    else UNKNOWN
  else if b_dim = 3 then
    if a_dim = 2 then MIXED
    else if a_dim = 3 then BATCH
    else UNKNOWN
  else UNKNOWN

/-! ### `dot` (source lines 90–111)

`dot` wraps the operands into the engine's CSR representation when they are
`SparseTensor`s and calls `tfsp.matmul`.  Engine semantics modelled here:
`tfsp.matmul` produces a CSR matrix (the only result with a
`to_sparse_tensor` method, which `dot` then converts back) exactly when both
operands are CSR, and a dense tensor otherwise; in either case the numeric
content is the (transpose-flag adjusted) product along the innermost two
dimensions, and a rank mismatch or inner-dimension mismatch raises. -/

def dot (a b : Arr) (transpose_a : Bool := false) (transpose_b : Bool := false) :
    Option Arr :=
  match a.val, b.val with
  | .r2 x, .r2 y =>
    (Mat.mul (if transpose_a then x.transposed else x)
        (if transpose_b then y.transposed else y)).map
      (fun m => ⟨a.sparse && b.sparse, .r2 m⟩)
  | .r3 x, .r3 y =>
    (Ten3.bmm (if transpose_a then x.mT else x)
        (if transpose_b then y.mT else y)).map
      (fun t => ⟨a.sparse && b.sparse, .r3 t⟩)
  | _, _ => none

/-! ### `mixed_mode_dot` (source lines 114–129) -/

/-- Tuple unpacking `s_0_, s_1_, s_2_ = K.int_shape(b)`: raises (models as
`none`) unless `b` has rank 3. -/
def K_int_shape3 (b : Arr) : Option (ℕ × ℕ × ℕ) :=
  match b.val with
  | .r3 t => some (t.d0, t.d1, t.d2)
  | _ => none

/-- Computes `tf.einsum('ij,bjk->bik', a, b)` by transposing `b` to
`(s1, s2, s0)`, flattening to `(s1, s2*s0)`, multiplying by `a`, and undoing
the reshape and transpose — exactly the source's five steps. -/
def mixed_mode_dot (a b : Arr) : Option Arr :=
  match K_int_shape3 b with
  | none => none
  | some (_, s1, s2) =>
    match b.val with
    | .r2 _ => none
    | .r3 t =>
      match reshape3to2 t.transpose120 s1 with
      | none => none
      | some bm =>
        match dot a ⟨b.sparse, .r2 bm⟩ with
        | none => none
        | some o =>
          match o.val with
          | .r3 _ => none
          | .r2 om =>
            match reshape2to3 om s1 s2 with
            | none => none
            | some o3 => some ⟨o.sparse, .r3 o3.transpose201⟩

/-! ### `filter_dot` (source lines 73–87) -/

def filter_dot (fltr features : Arr) : Option Arr :=
  let mode := autodetect_mode fltr.ndim features.ndim
  if mode = SINGLE ∨ mode = BATCH then dot fltr features
  else mixed_mode_dot fltr features

/-! ### `degree_power` (source lines 132–147)

`degree_power` is numpy/scipy code on a rank-2 array or sparse matrix.  A
rank-2 numpy/scipy value is an `Arr2`: a `Mat` plus the `sp.issparse` flag.

`np.power` on the (nonnegative, per the adjacency convention) row sums
produces `+inf` exactly on a zero base with a negative exponent; the line
`degrees[np.isinf(degrees)] = 0.` then replaces those entries by `0.`.  We
model an intermediate numpy float as a real number together with an
infinity flag (`NF`). -/

/-- A rank-2 numpy array or scipy sparse matrix. -/
structure Arr2 where
  sparse : Bool
  mat : Mat

/-- Row sum `A.sum(1)` at row `i` (for sparse input, `np.array(...).flatten()`
of the resulting row-vector matrix gives the same sequence). -/
def Mat.rowSum (a : Mat) (i : ℕ) : ℝ :=
  ∑ j ∈ Finset.range a.cols, a.entry i j

/-- A numpy floating value: either an ordinary (real) value or `+inf`. -/
structure NF where
  isInf : Bool
  val : ℝ

/-- `np.power(x, k)` for a nonnegative base `x`: `+inf` when `x = 0` and
`k < 0`, otherwise the real power `x ^ k`. -/
def np_power (x k : ℝ) : NF :=
  if x = 0 ∧ k < 0 then ⟨true, 0⟩ else ⟨false, x ^ k⟩

/-- The clamp `degrees[np.isinf(degrees)] = 0.` applied to one entry. -/
def clamp_inf (v : NF) : ℝ :=
  if v.isInf then 0 else v.val

/-- `np.diag(d)` / `sp.diags(d)` for a length-`n` vector `d`. -/
def np_diag (n : ℕ) (d : ℕ → ℝ) : Mat :=
  ⟨n, n, fun i j => if i = j then d i else 0⟩

/-- The clamped degrees vector
`degrees = np.power(np.array(A.sum(1)), k).flatten(); degrees[np.isinf(degrees)] = 0.` -/
def degrees (A : Arr2) (k : ℝ) (i : ℕ) : ℝ :=
  clamp_inf (np_power (A.mat.rowSum i) k)

/-- Degree matrix to the power `k`: diagonal of clamped powers of the row
sums, sparse (DIA) iff the input is sparse.  Total — the source has no error
path. -/
def degree_power (A : Arr2) (k : ℝ) : Arr2 :=
  ⟨A.sparse, np_diag A.mat.rows (degrees A k)⟩

/-! ### `normalized_adjacency` (source lines 150–164) -/

/-- The `.dot` method used by `normalized_adjacency`: numpy/scipy matrix
product; the result is sparse iff both operands are sparse (within this
module both operands always agree in sparsity). -/
def npdot (a b : Arr2) : Option Arr2 :=
  (a.mat.mul b.mat).map (fun m => ⟨a.sparse && b.sparse, m⟩)

/-- Symmetric normalization `D^(-1/2) · A · D^(-1/2)` or random-walk
normalization `D^(-1) · A`, with the products associated as in the source
(`normalized_D.dot(A).dot(normalized_D)`). -/
def normalized_adjacency (A : Arr2) (symmetric : Bool := true) : Option Arr2 :=
  match symmetric with
  | true =>
    match npdot (degree_power A (-(1/2))) A with
    | none => none
    | some x => npdot x (degree_power A (-(1/2)))
  | false =>
    npdot (degree_power A (-1)) A

/-! ### `localpooling_filter` (source lines 167–191)

Value-level embedding.  The source copies `A`, builds an identity of size
`A.shape[-1]` in `A`'s sparsity class, and either normalizes `A + I`
directly (rank 2) or writes `normalized_adjacency(A[i] + I)` into slice `i`
of the copy for each batch index (rank 3; the slice assignment requires the
result to have the slice's shape).  The final `sort_indices()` canonicalizes
a sparse result's index storage in place and does not change the value, so
it is the identity here.  A store-level embedding of the same function,
making the copy-and-write discipline explicit, follows below for the
frame-effect claim. -/

/-- One batch step of the rank-3 branch: the value written into slice `i`
of the copy, or `none` if the arithmetic or the slice assignment raises. -/
def lp_slice (sp : Bool) (t : Ten3) (symmetric : Bool) (i : ℕ) : Option Mat :=
  match Mat.add (t.slice i) (eye t.d2) with
  | none => none
  | some At =>
    match normalized_adjacency ⟨sp, At⟩ symmetric with
    | none => none
    | some out =>
      if out.mat.rows = t.d1 ∧ out.mat.cols = t.d2 then some out.mat else none

def localpooling_filter (A : Arr) (symmetric : Bool := true) : Option Arr :=
  match A.val with
  | .r2 m =>
    match Mat.add m (eye m.cols) with
    | none => none
    | some At =>
      match normalized_adjacency ⟨A.sparse, At⟩ symmetric with
      | none => none
      | some out => some ⟨out.sparse, .r2 out.mat⟩
  | .r3 t =>
    if _h : ∀ i, i < t.d0 → (lp_slice A.sparse t symmetric i).isSome then
      some ⟨A.sparse, .r3 ⟨t.d0, t.d1, t.d2,
        fun i j k => ((lp_slice A.sparse t symmetric i).getD ⟨0, 0, fun _ _ => 0⟩).entry j k⟩⟩
    else none

/-! ### Store-level `localpooling_filter`

To state the frame property (`localpooling_filter` never mutates its
argument) we re-express the same source function with the object store
explicit: array objects live in numbered cells, `A.copy()` allocates a fresh
cell, and the only writes are the rank-3 branch's slice assignments
`fltr[i] = ...` and the final in-place `fltr.sort_indices()`, all to the
copy's cell.  All other operations allocate fresh values. -/

/-- An object store: cell contents plus the next fresh address. -/
structure Store where
  mem : ℕ → Option Arr
  next : ℕ

/-- Overwrite the contents of an existing cell (in-place mutation). -/
def Store.write (σ : Store) (r : ℕ) (v : Arr) : Store :=
  ⟨fun x => if x = r then some v else σ.mem x, σ.next⟩

/-- Allocate a fresh cell holding `v`, returning the new store and the
cell's address. -/
def Store.alloc (σ : Store) (v : Arr) : Store × ℕ :=
  (⟨fun x => if x = σ.next then some v else σ.mem x, σ.next + 1⟩, σ.next)

/-- One iteration of the rank-3 loop `fltr[i] = normalized_adjacency(A[i] + I,
symmetric)`: reads the argument cell `r` and the copy cell `fr`, writes the
updated copy back into `fr`. -/
def asTen3 (v : AVal) : Option Ten3 :=
  match v with
  | .r2 _ => none
  | .r3 u => some u

def lp_loop_step (r fr : ℕ) (symmetric : Bool) (σo : Option Store) (i : ℕ) :
    Option Store :=
  σo.bind fun σc =>
  (σc.mem r).bind fun Acur =>
  (asTen3 Acur.val).bind fun tcur =>
  (σc.mem fr).bind fun fl =>
  (asTen3 fl.val).bind fun fcur =>
  (lp_slice Acur.sparse tcur symmetric i).bind fun m =>
  some (σc.write fr ⟨fl.sparse, .r3 (fcur.setSlice i m)⟩)

/-- `localpooling_filter` with the object store explicit: takes the address
of the caller's array and returns the updated store plus the address of the
returned filter. -/
def localpooling_filter_st (σ : Store) (r : ℕ) (symmetric : Bool) :
    Option (Store × ℕ) :=
  (σ.mem r).bind fun A =>
  match A.val with
  | .r2 m =>
    (Mat.add m (eye m.cols)).bind fun At =>
    (normalized_adjacency ⟨A.sparse, At⟩ symmetric).bind fun out =>
    some (((σ.alloc A).1.alloc ⟨out.sparse, .r2 out.mat⟩).1,
      ((σ.alloc A).1.alloc ⟨out.sparse, .r2 out.mat⟩).2)
  | .r3 t =>
    ((List.range t.d0).foldl (lp_loop_step r (σ.alloc A).2 symmetric)
        (some (σ.alloc A).1)).bind fun σf =>
    some (σf, (σ.alloc A).2)

/-! ## Shared helper lemmas and sample inputs -/

/-- The matcher for a rank-2 result: the value is rank 2 and its matrix
agrees with `m` on the in-range region. -/
def Arr.holdsR2 (r : Arr) (m : Mat) : Prop :=
  match r.val with
  | .r2 x => x.EqOn m
  | .r3 _ => False

/-- Sample adjacency matrix `[[0, 1], [1, 0]]`. -/
def A01 : Mat := ⟨2, 2, fun i j => if i = j then 0 else 1⟩

/-- Sample all-ones matrix `[[1, 1], [1, 1]]` (that is, `A01 + I`). -/
def A11 : Mat := ⟨2, 2, fun _ _ => 1⟩

/-- Sample expected filter `[[1/2, 1/2], [1/2, 1/2]]`. -/
def halfM : Mat := ⟨2, 2, fun _ _ => 1 / 2⟩

lemma Mat_add_eq (a b : Mat) (h1 : a.rows = b.rows) (h2 : a.cols = b.cols) :
    Mat.add a b = some ⟨a.rows, a.cols, fun i j => a.entry i j + b.entry i j⟩ := by
  unfold Mat.add
  rw [if_pos ⟨h1, h2⟩]

lemma npdot_eq (a b : Arr2) (h : a.mat.cols = b.mat.rows) :
    npdot a b = some ⟨a.sparse && b.sparse,
      ⟨a.mat.rows, b.mat.cols,
        fun i k => ∑ j ∈ Finset.range a.mat.cols, a.mat.entry i j * b.mat.entry j k⟩⟩ := by
  unfold npdot Mat.mul
  rw [if_pos h]
  rfl

lemma lp_r2_eq (sp : Bool) (m : Mat) (s : Bool) :
    localpooling_filter ⟨sp, .r2 m⟩ s =
      (Mat.add m (eye m.cols)).bind (fun At =>
        (normalized_adjacency ⟨sp, At⟩ s).map (fun o => ⟨o.sparse, .r2 o.mat⟩)) := by
  cases hA : Mat.add m (eye m.cols) with
  | none => simp [localpooling_filter, hA]
  | some At =>
    cases hN : normalized_adjacency ⟨sp, At⟩ s with
    | none => simp [localpooling_filter, hA, hN]
    | some out => simp [localpooling_filter, hA, hN]

lemma two_rpow_half_mul : (2 : ℝ) ^ (-(1 / 2) : ℝ) * (2 : ℝ) ^ (-(1 / 2) : ℝ) = 1 / 2 := by
  rw [← Real.rpow_add two_pos, show (-(1 / 2) + -(1 / 2) : ℝ) = -1 by norm_num,
    Real.rpow_neg_one]
  norm_num

lemma np_power_pos (x k : ℝ) (hx : x ≠ 0) : np_power x k = ⟨false, x ^ k⟩ := by
  unfold np_power
  rw [if_neg]
  intro h
  exact hx h.1

lemma A01_rowSum (i : ℕ) (hi : i < 2) : A01.rowSum i = 1 := by
  interval_cases i <;>
    simp [Mat.rowSum, A01, Finset.sum_range_succ]

lemma A11_rowSum (i : ℕ) : A11.rowSum i = 2 := by
  simp [Mat.rowSum, A11, Finset.sum_range_succ]

/-! ## Claims -/

/-- C6: `autodetect_mode` always returns a code and never raises; the value
is determined solely by the pair of ranks: SINGLE(1) for (2,2), MIXED(2) for
(2,3), iMIXED(3) for (3,2), BATCH(4) for (3,3), and UNKNOWN(-1) for every
other rank pairing. -/
theorem claim_C6 (a_dim b_dim : ℕ) :
    autodetect_mode a_dim b_dim =
      if a_dim = 2 ∧ b_dim = 2 then SINGLE
      else if a_dim = 2 ∧ b_dim = 3 then MIXED
      else if a_dim = 3 ∧ b_dim = 2 then iMIXED
      else if a_dim = 3 ∧ b_dim = 3 then BATCH
      else UNKNOWN := by
  unfold autodetect_mode
  split_ifs <;> first | rfl | omega

/-- C6 witness: the table at the ranks (2,2), (2,3), (3,2), (3,3), (1,2)
and (4,3). -/
theorem claim_C6_witness :
    autodetect_mode 2 2 = SINGLE ∧ autodetect_mode 2 3 = MIXED ∧
    autodetect_mode 3 2 = iMIXED ∧ autodetect_mode 3 3 = BATCH ∧
    autodetect_mode 1 2 = UNKNOWN ∧ autodetect_mode 4 3 = UNKNOWN :=
  ⟨claim_C6 2 2, claim_C6 2 3, claim_C6 3 2, claim_C6 3 3, claim_C6 1 2, claim_C6 4 3⟩

/-- C5: `filter_dot` computes `autodetect_mode` of the operands; on SINGLE
or BATCH it returns `dot(filter, features)` with default transpose flags,
otherwise it returns `mixed_mode_dot(filter, features)`; in particular for
rank-2 filter and rank-2 features it equals `dot(filter, features)`
exactly. -/
theorem claim_C5 :
    (∀ a b : Arr, filter_dot a b =
      if autodetect_mode a.ndim b.ndim = SINGLE ∨ autodetect_mode a.ndim b.ndim = BATCH
      then dot a b else mixed_mode_dot a b) ∧
    (∀ (sa sb : Bool) (m f : Mat),
      filter_dot ⟨sa, .r2 m⟩ ⟨sb, .r2 f⟩ = dot ⟨sa, .r2 m⟩ ⟨sb, .r2 f⟩) := by
  constructor
  · intro a b
    rfl
  · intro sa sb m f
    rfl

/-- C10: `dot` returns a sparse tensor exactly when both operands are
sparse; with at least one dense operand the product is dense. -/
theorem claim_C10 (a b : Arr) (ta tb : Bool) (o : Arr)
    (h : dot a b ta tb = some o) : o.sparse = (a.sparse && b.sparse) := by
  rcases a with ⟨sa, ma | ta3⟩ <;> rcases b with ⟨sb, mb | tb3⟩ <;>
    simp only [dot, Option.map_eq_some'] at h
  · obtain ⟨m, -, rfl⟩ := h
    rfl
  · exact absurd h (by simp)
  · exact absurd h (by simp)
  · obtain ⟨m, -, rfl⟩ := h
    rfl

/-- C10 witness: a sparse-by-dense product exists and is dense. -/
theorem claim_C10_witness :
    (dot ⟨true, .r2 A01⟩ ⟨false, .r2 A11⟩).isSome = true ∧
    (dot ⟨true, .r2 A01⟩ ⟨false, .r2 A11⟩).elim True
      (fun o => o.sparse = ((true : Bool) && false)) := by
  refine ⟨rfl, ?_⟩
  cases h : dot ⟨true, .r2 A01⟩ ⟨false, .r2 A11⟩ with
  | none => trivial
  | some o => exact claim_C10 ⟨true, .r2 A01⟩ ⟨false, .r2 A11⟩ false false o h

/-- C9: `dot` with `transpose_a = true` on a square rank-2 operand `a` and a
same-rank operand `b`, dense or sparse, equals `dot(transpose(a), b)` with
both flags false (the `transpose` call with its default permutation). -/
theorem claim_C9 (sp : Bool) (m : Mat) (b : Arr)
    (_hsq : m.rows = m.cols) (hb : b.ndim = 2) :
    dot ⟨sp, .r2 m⟩ b true false =
      (transpose ⟨sp, .r2 m⟩).bind (fun x => dot x b) := by
  rcases b with ⟨sb, mb | tb⟩
  · rfl
  · exact absurd hb (by simp [Arr.ndim])

lemma sum_diag_mul (n : ℕ) (d : ℕ → ℝ) (f : ℕ → ℝ) (i : ℕ) (hi : i < n) :
    ∑ j ∈ Finset.range n, (np_diag n d).entry i j * f j = d i * f i := by
  rw [Finset.sum_eq_single i]
  · simp [np_diag]
  · intro b _ hbne
    simp [np_diag, Ne.symm hbne]
  · intro hnot
    exact absurd (Finset.mem_range.mpr hi) hnot

lemma sum_mul_diag (n : ℕ) (d : ℕ → ℝ) (f : ℕ → ℝ) (k : ℕ) (hk : k < n) :
    ∑ j ∈ Finset.range n, f j * (np_diag n d).entry j k = f k * d k := by
  rw [Finset.sum_eq_single k]
  · simp [np_diag]
  · intro b _ hbne
    simp [np_diag, hbne]
  · intro hnot
    exact absurd (Finset.mem_range.mpr hk) hnot

lemma na_true_eq (A : Arr2) :
    normalized_adjacency A true =
      (npdot (degree_power A (-(1/2))) A).bind
        (fun x => npdot x (degree_power A (-(1/2)))) := by
  show (match npdot (degree_power A (-(1/2))) A with
        | none => none
        | some x => npdot x (degree_power A (-(1/2)))) = _
  cases npdot (degree_power A (-(1/2))) A <;> rfl

lemma na_false_eq (A : Arr2) :
    normalized_adjacency A false = npdot (degree_power A (-1)) A := rfl

/-- Success and entries of the symmetric normalization on a square input:
the (i,j) entry is `degrees(i) * A(i,j) * degrees(j)` with the `-1/2`
exponent. -/
lemma na_sym_entry (A : Arr2) (h : A.mat.cols = A.mat.rows) :
    ∃ o, normalized_adjacency A true = some o ∧ o.sparse = A.sparse ∧
      o.mat.rows = A.mat.rows ∧ o.mat.cols = A.mat.rows ∧
      ∀ i j, i < A.mat.rows → j < A.mat.rows →
        o.mat.entry i j =
          degrees A (-(1/2)) i * A.mat.entry i j * degrees A (-(1/2)) j := by
  rw [na_true_eq, npdot_eq _ _ rfl, Option.some_bind', npdot_eq _ _ (by exact h)]
  refine ⟨_, rfl, by simp [degree_power], rfl, rfl, ?_⟩
  intro i j hi hj
  show (∑ j2 ∈ Finset.range A.mat.cols,
      (∑ j1 ∈ Finset.range A.mat.rows,
        (np_diag A.mat.rows (degrees A (-(1/2)))).entry i j1 * A.mat.entry j1 j2) *
      (np_diag A.mat.rows (degrees A (-(1/2)))).entry j2 j) = _
  rw [h, sum_mul_diag A.mat.rows (degrees A (-(1/2)))
      (fun j2 => ∑ j1 ∈ Finset.range A.mat.rows,
        (np_diag A.mat.rows (degrees A (-(1/2)))).entry i j1 * A.mat.entry j1 j2) j hj,
    sum_diag_mul A.mat.rows (degrees A (-(1/2))) (fun j1 => A.mat.entry j1 j) i hi]

/-- Success and entries of the random-walk normalization: the (i,j) entry
is `degrees(i) * A(i,j)` with the `-1` exponent. -/
lemma na_rw_entry (A : Arr2) :
    ∃ o, normalized_adjacency A false = some o ∧ o.sparse = A.sparse ∧
      o.mat.rows = A.mat.rows ∧ o.mat.cols = A.mat.cols ∧
      ∀ i j, i < A.mat.rows → j < A.mat.cols →
        o.mat.entry i j = degrees A (-1) i * A.mat.entry i j := by
  rw [na_false_eq, npdot_eq _ _ rfl]
  refine ⟨_, rfl, by simp [degree_power], rfl, rfl, ?_⟩
  intro i j hi hj
  exact sum_diag_mul A.mat.rows (degrees A (-1)) (fun j1 => A.mat.entry j1 j) i hi

/-- On a square input, `normalized_adjacency` succeeds for either flag and
preserves sparsity and shape. -/
lemma na_square (A : Arr2) (h : A.mat.cols = A.mat.rows) (s : Bool) :
    ∃ o, normalized_adjacency A s = some o ∧ o.sparse = A.sparse ∧
      o.mat.rows = A.mat.rows ∧ o.mat.cols = A.mat.cols := by
  cases s
  · obtain ⟨o, h1, h2, h3, h4, -⟩ := na_rw_entry A
    exact ⟨o, h1, h2, h3, h4⟩
  · obtain ⟨o, h1, h2, h3, h4, -⟩ := na_sym_entry A h
    exact ⟨o, h1, h2, h3, h4.trans h.symm⟩

/-- C9 witness: the equation at `a = [[0,1],[1,0]]` sparse and at the same
`a` dense, against a dense `b`. -/
theorem claim_C9_witness :
    A01.rows = A01.cols ∧ (Arr.mk false (.r2 A11)).ndim = 2 ∧
    dot ⟨true, .r2 A01⟩ ⟨false, .r2 A11⟩ true false =
      (transpose ⟨true, .r2 A01⟩).bind (fun x => dot x ⟨false, .r2 A11⟩) ∧
    dot ⟨false, .r2 A01⟩ ⟨false, .r2 A11⟩ true false =
      (transpose ⟨false, .r2 A01⟩).bind (fun x => dot x ⟨false, .r2 A11⟩) :=
  ⟨rfl, rfl, claim_C9 true A01 ⟨false, .r2 A11⟩ rfl rfl,
    claim_C9 false A01 ⟨false, .r2 A11⟩ rfl rfl⟩

/-- C2: `degree_power(A, k)` never raises and returns a diagonal matrix
(sparse iff `A` is sparse) whose i-th diagonal entry is the i-th row sum of
`A` raised to `k`, except that an infinite power — a zero row sum with a
negative exponent — is replaced by exactly `0`; in particular `k = -1` on a
zero-sum row gives `0`.  Row sums are assumed nonnegative (the adjacency
convention), which is where the real-power model coincides with
`np.power`. -/
theorem claim_C2 (A : Arr2) (k : ℝ)
    (_h : ∀ i, i < A.mat.rows → 0 ≤ A.mat.rowSum i) :
    (degree_power A k).sparse = A.sparse ∧
    (degree_power A k).mat.rows = A.mat.rows ∧
    (degree_power A k).mat.cols = A.mat.rows ∧
    (∀ i j, i < A.mat.rows → j < A.mat.rows → i ≠ j →
      (degree_power A k).mat.entry i j = 0) ∧
    (∀ i, i < A.mat.rows →
      (degree_power A k).mat.entry i i =
        if A.mat.rowSum i = 0 ∧ k < 0 then 0 else A.mat.rowSum i ^ k) := by
  refine ⟨rfl, rfl, rfl, ?_, ?_⟩
  · intro i j _ _ hne
    simp [degree_power, np_diag, hne]
  · intro i _
    show (np_diag A.mat.rows (degrees A k)).entry i i = _
    unfold np_diag degrees clamp_inf np_power
    by_cases hc : A.mat.rowSum i = 0 ∧ k < 0 <;> simp [hc]

/-- Sample zero matrix `[[0, 0], [0, 0]]` (every row has sum 0). -/
def Zm : Mat := ⟨2, 2, fun _ _ => 0⟩

/-- C2 witness: at the zero matrix, dense and sparse, the `k = -1` diagonal
entries are exactly 0. -/
theorem claim_C2_witness :
    (∀ i, i < Zm.rows → 0 ≤ Zm.rowSum i) ∧
    (degree_power ⟨false, Zm⟩ (-1)).mat.entry 0 0 = 0 ∧
    (degree_power ⟨true, Zm⟩ (-1)).mat.entry 0 0 = 0 := by
  have hz : ∀ i, i < Zm.rows → 0 ≤ Zm.rowSum i := by
    intro i _
    simp [Mat.rowSum, Zm]
  have hzs : Zm.rowSum 0 = 0 := by simp [Mat.rowSum, Zm]
  refine ⟨hz, ?_, ?_⟩
  · have h := (claim_C2 ⟨false, Zm⟩ (-1) hz).2.2.2.2 0 (by norm_num [Zm])
    rw [h, if_pos ⟨hzs, by norm_num⟩]
  · have h := (claim_C2 ⟨true, Zm⟩ (-1) hz).2.2.2.2 0 (by norm_num [Zm])
    rw [h, if_pos ⟨hzs, by norm_num⟩]

/-- C3: `normalized_adjacency(A, true)` is
`degree_power(A, -0.5) · A · degree_power(A, -0.5)` (associated as in the
source) and `normalized_adjacency(A, false)` is `degree_power(A, -1) · A`;
in particular the symmetric form leaves `[[0,1],[1,0]]` unchanged. -/
theorem claim_C3 :
    (∀ A : Arr2, normalized_adjacency A true =
      (npdot (degree_power A (-(1/2))) A).bind
        (fun x => npdot x (degree_power A (-(1/2))))) ∧
    (∀ A : Arr2, normalized_adjacency A false = npdot (degree_power A (-1)) A) ∧
    ((normalized_adjacency ⟨false, A01⟩ true).elim False
      (fun o => o.sparse = false ∧ o.mat.EqOn A01)) := by
  refine ⟨na_true_eq, na_false_eq, ?_⟩
  obtain ⟨o, h1, h2, h3, h4, h5⟩ := na_sym_entry ⟨false, A01⟩ rfl
  rw [h1]
  have hdeg : ∀ m, m < 2 → degrees ⟨false, A01⟩ (-(1/2)) m = 1 := by
    intro m hm
    show clamp_inf (np_power (A01.rowSum m) (-(1/2))) = 1
    rw [A01_rowSum m hm, np_power_pos 1 (-(1/2)) one_ne_zero]
    simp [clamp_inf, Real.one_rpow]
  refine ⟨h2, h3, h4, ?_⟩
  intro i j hi hj
  rw [h3] at hi
  rw [h4] at hj
  rw [h5 i j hi hj, hdeg i hi, hdeg j hj]
  ring

/-- C1: for a rank-2 square adjacency matrix `A`, `localpooling_filter(A,
symmetric)` returns `normalized_adjacency(A + I, symmetric)` with `I` the
identity of size `A.shape[-1]`; in particular on `[[0,1],[1,0]]` with
`symmetric = true` the filter is `[[1/2,1/2],[1/2,1/2]]`. -/
theorem claim_C1 :
    (∀ (sp : Bool) (m : Mat) (s : Bool),
      localpooling_filter ⟨sp, .r2 m⟩ s =
        (Mat.add m (eye m.cols)).bind (fun At =>
          (normalized_adjacency ⟨sp, At⟩ s).map (fun o => ⟨o.sparse, .r2 o.mat⟩))) ∧
    ((localpooling_filter ⟨false, .r2 A01⟩ true).elim False
      (fun r => r.sparse = false ∧ r.holdsR2 halfM)) := by
  refine ⟨lp_r2_eq, ?_⟩
  rw [lp_r2_eq false A01 true, Mat_add_eq A01 (eye A01.cols) rfl rfl, Option.some_bind']
  obtain ⟨o, h1, h2, h3, h4, h5⟩ :=
    na_sym_entry ⟨false, ⟨A01.rows, A01.cols,
      fun i j => A01.entry i j + (eye A01.cols).entry i j⟩⟩ rfl
  rw [h1, Option.map_some']
  have hrs : ∀ m, m < 2 →
      (Mat.mk A01.rows A01.cols
        (fun i j => A01.entry i j + (eye A01.cols).entry i j)).rowSum m = 2 := by
    intro m hm
    interval_cases m <;>
      · simp [Mat.rowSum, A01, eye, Finset.sum_range_succ]
        norm_num
  have hdeg : ∀ m, m < 2 →
      degrees ⟨false, ⟨A01.rows, A01.cols,
          fun i j => A01.entry i j + (eye A01.cols).entry i j⟩⟩ (-(1/2)) m =
        (2 : ℝ) ^ (-(1/2) : ℝ) := by
    intro m hm
    show clamp_inf (np_power _ (-(1/2))) = _
    rw [hrs m hm, np_power_pos 2 (-(1/2)) two_ne_zero]
    simp [clamp_inf]
  refine ⟨h2, h3, h4, ?_⟩
  intro i j hi hj
  rw [h3] at hi
  rw [h4] at hj
  have hi2 : i < 2 := hi
  have hj2 : j < 2 := hj
  rw [h5 i j hi hj, hdeg i hi2, hdeg j hj2]
  have hone : A01.entry i j + (eye A01.cols).entry i j = 1 := by
    interval_cases i <;> interval_cases j <;> simp [A01, eye]
  show (2 : ℝ) ^ (-(1/2) : ℝ) * (A01.entry i j + (eye A01.cols).entry i j) *
      (2 : ℝ) ^ (-(1/2) : ℝ) = halfM.entry i j
  rw [hone, mul_one, two_rpow_half_mul]
  rfl

/-! ## Batched filtering (claim C7) -/

/-- Slice `i` of a rank-3 value (`none` on a rank-2 value). -/
def Arr.slice3 (a : Arr) (i : ℕ) : Option Mat :=
  match a.val with
  | .r3 t => some (t.slice i)
  | _ => none

/-- The matrix of a rank-2 value (`none` on a rank-3 value). -/
def Arr.mat2 (a : Arr) : Option Mat :=
  match a.val with
  | .r2 m => some m
  | _ => none

/-- Agreement of two optional matrices: both absent, or both present and
extensionally equal in range. -/
def OMatEq : Option Mat → Option Mat → Prop
  | some a, some b => a.EqOn b
  | none, none => True
  | _, _ => False

lemma add_slice_eye (t : Ten3) (i : ℕ) (hd : t.d1 = t.d2) :
    Mat.add (t.slice i) (eye t.d2) =
      some ⟨t.d1, t.d2, fun j k => t.entry i j k + (eye t.d2).entry j k⟩ := by
  unfold Mat.add Ten3.slice
  rw [if_pos ⟨by exact hd, rfl⟩]

lemma add_slice_eye2 (t : Ten3) (i : ℕ) (hd : t.d1 = t.d2) :
    Mat.add (t.slice i) (eye (t.slice i).cols) =
      some ⟨t.d1, t.d2, fun j k => t.entry i j k + (eye t.d2).entry j k⟩ :=
  add_slice_eye t i hd

/-- On a batch of square slices, one loop iteration of the rank-3 branch
succeeds, produces the same matrix as the independent rank-2 call on the
slice, and that matrix has the slice's shape. -/
lemma lp_slice_characterize (sp : Bool) (t : Ten3) (s : Bool) (i : ℕ)
    (hd : t.d1 = t.d2) :
    ∃ o : Arr2,
      normalized_adjacency
          ⟨sp, ⟨t.d1, t.d2, fun j k => t.entry i j k + (eye t.d2).entry j k⟩⟩ s =
        some o ∧
      o.mat.rows = t.d1 ∧ o.mat.cols = t.d2 ∧
      lp_slice sp t s i = some o.mat ∧
      localpooling_filter ⟨sp, .r2 (t.slice i)⟩ s = some ⟨o.sparse, .r2 o.mat⟩ := by
  obtain ⟨o, h1, h2, h3, h4⟩ :=
    na_square ⟨sp, ⟨t.d1, t.d2, fun j k => t.entry i j k + (eye t.d2).entry j k⟩⟩
      (by exact hd.symm) s
  refine ⟨o, h1, by exact h3, by exact h4, ?_, ?_⟩
  · show (match Mat.add (t.slice i) (eye t.d2) with
          | none => none
          | some At =>
            match normalized_adjacency ⟨sp, At⟩ s with
            | none => none
            | some out =>
              if out.mat.rows = t.d1 ∧ out.mat.cols = t.d2 then some out.mat
              else none) = some o.mat
    rw [add_slice_eye t i hd]
    show (match normalized_adjacency
            ⟨sp, ⟨t.d1, t.d2, fun j k => t.entry i j k + (eye t.d2).entry j k⟩⟩ s with
          | none => none
          | some out =>
            if out.mat.rows = t.d1 ∧ out.mat.cols = t.d2 then some out.mat
            else none) = some o.mat
    rw [h1]
    show (if o.mat.rows = t.d1 ∧ o.mat.cols = t.d2 then some o.mat else none) =
      some o.mat
    rw [if_pos ⟨by exact h3, by exact h4⟩]
  · rw [lp_r2_eq, add_slice_eye2 t i hd, Option.some_bind', h1, Option.map_some']

/-- C7: for a rank-3 batch of square adjacency matrices, slice `i` of the
batched `localpooling_filter` equals `localpooling_filter` of slice `i`, for
every batch index — the batched path and independent rank-2 calls agree. -/
theorem claim_C7 (t : Ten3) (s : Bool) (i : ℕ) (hd : t.d1 = t.d2) (_hi : i < t.d0) :
    (localpooling_filter ⟨false, .r3 t⟩ s).isSome = true ∧
    OMatEq ((localpooling_filter ⟨false, .r3 t⟩ s).bind (fun F => F.slice3 i))
      ((localpooling_filter ⟨false, .r2 (t.slice i)⟩ s).bind Arr.mat2) := by
  have hall : ∀ a, a < t.d0 → (lp_slice false t s a).isSome := by
    intro a _
    obtain ⟨o, -, -, -, hsl, -⟩ := lp_slice_characterize false t s a hd
    rw [hsl]
    rfl
  have hlp : localpooling_filter ⟨false, .r3 t⟩ s =
      some ⟨false, .r3 ⟨t.d0, t.d1, t.d2,
        fun a j k =>
          ((lp_slice false t s a).getD ⟨0, 0, fun _ _ => 0⟩).entry j k⟩⟩ := by
    show (if _h : ∀ a, a < t.d0 → (lp_slice false t s a).isSome then
        (some ⟨false, .r3 ⟨t.d0, t.d1, t.d2,
          fun a j k =>
            ((lp_slice false t s a).getD ⟨0, 0, fun _ _ => 0⟩).entry j k⟩⟩ : Option Arr)
      else none) =
      some ⟨false, .r3 ⟨t.d0, t.d1, t.d2,
        fun a j k =>
          ((lp_slice false t s a).getD ⟨0, 0, fun _ _ => 0⟩).entry j k⟩⟩
    rw [dif_pos hall]
  obtain ⟨o, hna, hr, hc, hsl, hr2⟩ := lp_slice_characterize false t s i hd
  constructor
  · rw [hlp]
    rfl
  · rw [hlp, hr2]
    show (Ten3.slice ⟨t.d0, t.d1, t.d2,
      fun a j k =>
        ((lp_slice false t s a).getD ⟨0, 0, fun _ _ => 0⟩).entry j k⟩ i).EqOn o.mat
    refine ⟨hr.symm, hc.symm, ?_⟩
    intro j k _ _
    show ((lp_slice false t s i).getD ⟨0, 0, fun _ _ => 0⟩).entry j k = _
    rw [hsl]
    rfl

/-! ## Mixed-mode product (claim C4) -/

lemma nat_div_helper (a r m : ℕ) (hm : 0 < m) (hr : r < m) : (a * m + r) / m = a := by
  rw [mul_comm a m, Nat.mul_add_div hm, Nat.div_eq_of_lt hr, Nat.add_zero]

lemma nat_mod_helper (a r m : ℕ) (hr : r < m) : (a * m + r) % m = r := by
  rw [mul_comm a m, Nat.mul_add_mod]
  exact Nat.mod_eq_of_lt hr

lemma nat_lt_helper (k n d2 d0 : ℕ) (hk : k < d2) (hn : n < d0) :
    k * d0 + n < d2 * d0 := by
  calc k * d0 + n < k * d0 + d0 := by omega
    _ = (k + 1) * d0 := by ring
    _ ≤ d2 * d0 := Nat.mul_le_mul_right d0 (Nat.succ_le_of_lt hk)

lemma Mat_mul_eq (a b : Mat) (h : a.cols = b.rows) :
    Mat.mul a b = some ⟨a.rows, b.cols,
      fun i k => ∑ j ∈ Finset.range a.cols, a.entry i j * b.entry j k⟩ := by
  unfold Mat.mul
  rw [if_pos h]

lemma reshape3to2_eq (u : Ten3) (r c : ℕ) (hr : r ≠ 0)
    (hc : u.d0 * u.d1 * u.d2 = r * c) :
    reshape3to2 u r = some ⟨r, c, fun i m => u.flat (i * c + m)⟩ := by
  have hdiv : u.d0 * u.d1 * u.d2 / r = c := by
    rw [hc]
    exact Nat.mul_div_cancel_left c (Nat.pos_of_ne_zero hr)
  unfold reshape3to2
  rw [if_pos ⟨hr, ⟨c, hc⟩⟩, hdiv]

lemma reshape2to3_eq (m : Mat) (r0 r1 c : ℕ) (h0 : r0 * r1 ≠ 0)
    (hc : m.rows * m.cols = r0 * r1 * c) :
    reshape2to3 m r0 r1 = some ⟨r0, r1, c,
      fun i j k => m.flat (i * (r1 * c) + (j * c + k))⟩ := by
  have hdiv : m.rows * m.cols / (r0 * r1) = c := by
    rw [hc]
    exact Nat.mul_div_cancel_left c (Nat.pos_of_ne_zero h0)
  unfold reshape2to3
  rw [if_pos ⟨h0, ⟨c, hc⟩⟩, hdiv]

lemma flat_entry2 (rows cols : ℕ) (e : ℕ → ℕ → ℝ) (i r : ℕ) (hr : r < cols) :
    (Mat.mk rows cols e).flat (i * cols + r) = e i r := by
  have hpos : 0 < cols := lt_of_le_of_lt (Nat.zero_le r) hr
  show e ((i * cols + r) / cols) ((i * cols + r) % cols) = e i r
  rw [nat_div_helper i r cols hpos hr, nat_mod_helper i r cols hr]

lemma flat_entry3 (d0 d1 d2 : ℕ) (e : ℕ → ℕ → ℕ → ℝ) (j x y : ℕ)
    (hx : x < d1) (hy : y < d2) :
    (Ten3.mk d0 d1 d2 e).flat (j * (d1 * d2) + (x * d2 + y)) = e j x y := by
  have h1 : 0 < d1 := lt_of_le_of_lt (Nat.zero_le x) hx
  have h2 : 0 < d2 := lt_of_le_of_lt (Nat.zero_le y) hy
  have hlt : x * d2 + y < d1 * d2 := nat_lt_helper x y d1 d2 hx hy
  have hp : j * (d1 * d2) + (x * d2 + y) = (j * d1 + x) * d2 + y := by ring
  have e1 : (j * (d1 * d2) + (x * d2 + y)) / (d1 * d2) = j :=
    nat_div_helper j (x * d2 + y) (d1 * d2) (Nat.mul_pos h1 h2) hlt
  have e2 : (j * (d1 * d2) + (x * d2 + y)) / d2 % d1 = x := by
    rw [hp, nat_div_helper (j * d1 + x) y d2 h2 hy, mul_comm j d1,
      Nat.mul_add_mod]
    exact Nat.mod_eq_of_lt hx
  have e3 : (j * (d1 * d2) + (x * d2 + y)) % d2 = y := by
    rw [hp]
    exact nat_mod_helper (j * d1 + x) y d2 hy
  show e ((j * (d1 * d2) + (x * d2 + y)) / (d1 * d2))
      ((j * (d1 * d2) + (x * d2 + y)) / d2 % d1)
      ((j * (d1 * d2) + (x * d2 + y)) % d2) = e j x y
  rw [e1, e2, e3]

lemma flat_transpose120 (t : Ten3) (j x y : ℕ) (hx : x < t.d2) (hy : y < t.d0) :
    (Ten3.transpose120 t).flat (j * (t.d2 * t.d0) + (x * t.d0 + y)) =
      t.entry y j x := by
  show (Ten3.mk t.d1 t.d2 t.d0 (fun a b c => t.entry c a b)).flat
      (j * (t.d2 * t.d0) + (x * t.d0 + y)) = t.entry y j x
  rw [flat_entry3 t.d1 t.d2 t.d0 (fun a b c => t.entry c a b) j x y hx hy]

lemma dot_r2_eq (sa sb : Bool) (a b : Mat) (o : Mat) (h : Mat.mul a b = some o) :
    dot ⟨sa, .r2 a⟩ ⟨sb, .r2 b⟩ = some ⟨sa && sb, .r2 o⟩ := by
  show (Mat.mul a b).map (fun m => (⟨sa && sb, .r2 m⟩ : Arr)) = _
  rw [h, Option.map_some']

/-- The five-step pipeline of `mixed_mode_dot`, assuming each engine step
succeeded. -/
lemma mixed_chain (a : Mat) (sa sb : Bool) (t : Ten3) (bm : Mat)
    (hbm : reshape3to2 t.transpose120 t.d1 = some bm)
    (o2 : Mat) (ho2 : Mat.mul a bm = some o2)
    (o3 : Ten3) (ho3 : reshape2to3 o2 t.d1 t.d2 = some o3) :
    mixed_mode_dot ⟨sa, .r2 a⟩ ⟨sb, .r3 t⟩ =
      some ⟨sa && sb, .r3 o3.transpose201⟩ := by
  have hdot := dot_r2_eq sa sb a bm o2 ho2
  simp only [mixed_mode_dot, K_int_shape3, hbm, hdot, ho3]

/-- The matcher for a successful rank-3 result: the value is present, rank
3, carries the sparsity flag `sp`, has shape `(e0, e1, e2)`, and its in-range
entries are given by `f`. -/
def RetT3 (o : Option Arr) (sp : Bool) (e0 e1 e2 : ℕ) (f : ℕ → ℕ → ℕ → ℝ) : Prop :=
  match o with
  | some a =>
    a.sparse = sp ∧
    (match a.val with
     | .r3 u => u.d0 = e0 ∧ u.d1 = e1 ∧ u.d2 = e2 ∧
         ∀ n i k, n < e0 → i < e1 → k < e2 → u.entry n i k = f n i k
     | .r2 _ => False)
  | none => False

/-- C4 (amended): for a rank-2 operand `a` that is square of size `s1`
(rows and columns both equal to `b`'s second dimension) and a rank-3 operand
`b` of statically known shape `(s0, s1, s2)` with `s1` and `s2` positive,
`mixed_mode_dot(a, b)` returns the rank-3 tensor of shape `(s0, s1, s2)`
with entries `result[n,i,k] = sum_j a[i,j] * b[n,j,k]`. -/
theorem claim_C4 (sa sb : Bool) (a : Mat) (t : Ten3)
    (hr : a.rows = t.d1) (hc : a.cols = t.d1)
    (h1 : 0 < t.d1) (h2 : 0 < t.d2) :
    RetT3 (mixed_mode_dot ⟨sa, .r2 a⟩ ⟨sb, .r3 t⟩) (sa && sb) t.d0 t.d1 t.d2
      (fun n i k => ∑ j ∈ Finset.range t.d1, a.entry i j * t.entry n j k) := by
  have hd1 : t.d1 ≠ 0 := h1.ne'
  have hbm : reshape3to2 t.transpose120 t.d1 =
      some ⟨t.d1, t.d2 * t.d0,
        fun i m => t.transpose120.flat (i * (t.d2 * t.d0) + m)⟩ :=
    reshape3to2_eq t.transpose120 t.d1 (t.d2 * t.d0) hd1
      (by exact mul_assoc t.d1 t.d2 t.d0)
  have ho2 : Mat.mul a
      ⟨t.d1, t.d2 * t.d0, fun i m => t.transpose120.flat (i * (t.d2 * t.d0) + m)⟩ =
      some ⟨a.rows, t.d2 * t.d0,
        fun i k => ∑ j ∈ Finset.range a.cols,
          a.entry i j * t.transpose120.flat (j * (t.d2 * t.d0) + k)⟩ := by
    rw [Mat_mul_eq a _ (by exact hc)]
  have ho3 : reshape2to3
      ⟨a.rows, t.d2 * t.d0,
        fun i k => ∑ j ∈ Finset.range a.cols,
          a.entry i j * t.transpose120.flat (j * (t.d2 * t.d0) + k)⟩ t.d1 t.d2 =
      some ⟨t.d1, t.d2, t.d0,
        fun i j k =>
          Mat.flat
            ⟨a.rows, t.d2 * t.d0,
              fun i2 k2 => ∑ j2 ∈ Finset.range a.cols,
                a.entry i2 j2 * t.transpose120.flat (j2 * (t.d2 * t.d0) + k2)⟩
            (i * (t.d2 * t.d0) + (j * t.d0 + k))⟩ := by
    refine reshape2to3_eq _ t.d1 t.d2 t.d0 (Nat.mul_ne_zero hd1 h2.ne') ?_
    show a.rows * (t.d2 * t.d0) = t.d1 * t.d2 * t.d0
    rw [hr]
    ring
  have hchain := mixed_chain a sa sb t _ hbm _ ho2 _ ho3
  rw [hchain]
  refine ⟨rfl, rfl, rfl, rfl, ?_⟩
  intro n i k hn hi hk
  show Mat.flat
      ⟨a.rows, t.d2 * t.d0,
        fun i2 k2 => ∑ j2 ∈ Finset.range a.cols,
          a.entry i2 j2 * t.transpose120.flat (j2 * (t.d2 * t.d0) + k2)⟩
      (i * (t.d2 * t.d0) + (k * t.d0 + n)) =
    ∑ j ∈ Finset.range t.d1, a.entry i j * t.entry n j k
  rw [flat_entry2 a.rows (t.d2 * t.d0) _ i (k * t.d0 + n)
    (nat_lt_helper k n t.d2 t.d0 hk hn)]
  rw [hc]
  refine Finset.sum_congr rfl ?_
  intro j _
  rw [flat_transpose120 t j k n hk hn]

/-- Sample non-square rank-2 operand `[[1],[1]]` (2 rows, 1 column). -/
def CXa : Mat := ⟨2, 1, fun _ _ => 1⟩

/-- Sample rank-3 operand of shape (1, 2, 1), all ones. -/
def CXb : Ten3 := ⟨1, 2, 1, fun _ _ _ => 1⟩

/-- C4 counterexample: with `rows(a) = s1 = 2` but `cols(a) = 1`, the claim
predicts a successful `(1, 2, 1)`-shaped result, but the pipeline raises —
the internal `dot` multiplies the 2×1 operand `a` against the reshaped 2×1
matrix, an inner-dimension mismatch. -/
theorem claim_C4_counterexample :
    CXa.rows = CXb.d1 ∧
    mixed_mode_dot ⟨false, .r2 CXa⟩ ⟨false, .r3 CXb⟩ = none :=
  ⟨rfl, rfl⟩

/-- C4 witness: the amended statement applied to the 1×1 operand `[[2]]`
against the batch `[[[3]]]`. -/
theorem claim_C4_witness :
    RetT3 (mixed_mode_dot ⟨false, .r2 ⟨1, 1, fun _ _ => 2⟩⟩
        ⟨false, .r3 ⟨1, 1, 1, fun _ _ _ => 3⟩⟩)
      (false && false) 1 1 1
      (fun n i k => ∑ j ∈ Finset.range 1,
        (Mat.mk 1 1 fun _ _ => (2 : ℝ)).entry i j *
        (Ten3.mk 1 1 1 fun _ _ _ => (3 : ℝ)).entry n j k) :=
  claim_C4 false false ⟨1, 1, fun _ _ => 2⟩ ⟨1, 1, 1, fun _ _ _ => 3⟩ rfl rfl
    Nat.one_pos Nat.one_pos

/-- Sample batch of one square adjacency matrix, `[[[0,1],[1,0]]]`. -/
def T0 : Ten3 := ⟨1, 2, 2, fun _ j k => if j = k then 0 else 1⟩

/-- C7 witness: the batch/slice agreement at a concrete 1×2×2 batch. -/
theorem claim_C7_witness :
    T0.d1 = T0.d2 ∧ 0 < T0.d0 ∧
    ((localpooling_filter ⟨false, .r3 T0⟩ true).isSome = true ∧
     OMatEq ((localpooling_filter ⟨false, .r3 T0⟩ true).bind (fun F => F.slice3 0))
       ((localpooling_filter ⟨false, .r2 (T0.slice 0)⟩ true).bind Arr.mat2)) :=
  ⟨rfl, Nat.one_pos, claim_C7 T0 true 0 rfl Nat.one_pos⟩

/-! ## Frame property of `localpooling_filter` (claim C8) -/

lemma lp_loop_none (r fr : ℕ) (s : Bool) (l : List ℕ) :
    l.foldl (lp_loop_step r fr s) none = none := by
  induction l with
  | nil => rfl
  | cons a as ih => exact ih

lemma lp_loop_step_mem (r fr x i : ℕ) (s : Bool) (hx : x ≠ fr) (σc σc2 : Store)
    (h : lp_loop_step r fr s (some σc) i = some σc2) :
    σc2.mem x = σc.mem x := by
  simp only [lp_loop_step, Option.some_bind'] at h
  rw [Option.bind_eq_some'] at h
  obtain ⟨Acur, -, h⟩ := h
  rw [Option.bind_eq_some'] at h
  obtain ⟨tcur, -, h⟩ := h
  rw [Option.bind_eq_some'] at h
  obtain ⟨fl, -, h⟩ := h
  rw [Option.bind_eq_some'] at h
  obtain ⟨fcur, -, h⟩ := h
  rw [Option.bind_eq_some'] at h
  obtain ⟨m, -, h⟩ := h
  injection h with h
  subst h
  simp [Store.write, hx]

lemma lp_loop_mem (r fr x : ℕ) (s : Bool) (hx : x ≠ fr) (l : List ℕ) :
    ∀ σc σf : Store, l.foldl (lp_loop_step r fr s) (some σc) = some σf →
      σf.mem x = σc.mem x := by
  induction l with
  | nil =>
    intro σc σf h
    injection h with h
    subst h
    rfl
  | cons a as ih =>
    intro σc σf h
    rw [List.foldl_cons] at h
    cases hstep : lp_loop_step r fr s (some σc) a with
    | none =>
      rw [hstep, lp_loop_none] at h
      exact Option.noConfusion h
    | some σc1 =>
      rw [hstep] at h
      rw [ih σc1 σf h, lp_loop_step_mem r fr x a s hx σc σc1 hstep]

/-- C8: `localpooling_filter` never mutates the caller's argument: in the
store-level embedding, after a successful call on the array in cell `r` of a
well-formed store (`r` below the allocation frontier), cell `r` holds the
same value as before — all writes go to the freshly allocated copy. -/
theorem claim_C8 (σ : Store) (r : ℕ) (s : Bool) (hr : r < σ.next)
    (p : Store × ℕ) (h : localpooling_filter_st σ r s = some p) :
    p.1.mem r = σ.mem r := by
  have h1 : r ≠ σ.next := Nat.ne_of_lt hr
  simp only [localpooling_filter_st] at h
  rw [Option.bind_eq_some'] at h
  obtain ⟨A, -, h⟩ := h
  rcases A with ⟨Asp, Am | At3⟩
  · replace h : ((Mat.add Am (eye Am.cols)).bind fun At =>
        (normalized_adjacency ⟨Asp, At⟩ s).bind fun out =>
        some (((σ.alloc ⟨Asp, .r2 Am⟩).1.alloc ⟨out.sparse, .r2 out.mat⟩).1,
          ((σ.alloc ⟨Asp, .r2 Am⟩).1.alloc ⟨out.sparse, .r2 out.mat⟩).2)) =
        some p := h
    rw [Option.bind_eq_some'] at h
    obtain ⟨At, -, h⟩ := h
    rw [Option.bind_eq_some'] at h
    obtain ⟨out, -, h⟩ := h
    injection h with h
    subst h
    show (((σ.alloc ⟨Asp, .r2 Am⟩).1.alloc ⟨out.sparse, .r2 out.mat⟩).1).mem r =
      σ.mem r
    have h2 : r ≠ σ.next + 1 := by omega
    simp [Store.alloc, h1, h2]
  · replace h : (((List.range At3.d0).foldl
        (lp_loop_step r (σ.alloc ⟨Asp, .r3 At3⟩).2 s)
        (some (σ.alloc ⟨Asp, .r3 At3⟩).1)).bind fun σf =>
        some (σf, (σ.alloc ⟨Asp, .r3 At3⟩).2)) = some p := h
    rw [Option.bind_eq_some'] at h
    obtain ⟨σf, hf, h⟩ := h
    injection h with h
    subst h
    show σf.mem r = σ.mem r
    have hmem := lp_loop_mem r (σ.alloc ⟨Asp, .r3 At3⟩).2 r s (by exact h1)
      (List.range At3.d0) (σ.alloc ⟨Asp, .r3 At3⟩).1 σf hf
    rw [hmem]
    simp [Store.alloc, h1]

/-- Sample store: cell 0 holds the dense `[[0,1],[1,0]]`, next free cell 1. -/
def σ0 : Store := ⟨fun x => if x = 0 then some ⟨false, .r2 A01⟩ else none, 1⟩

/-- C8 witness: the call succeeds on the sample store and cell 0 is
untouched. -/
theorem claim_C8_witness :
    0 < σ0.next ∧
    (localpooling_filter_st σ0 0 true).isSome = true ∧
    (localpooling_filter_st σ0 0 true).elim True (fun p => p.1.mem 0 = σ0.mem 0) := by
  refine ⟨Nat.one_pos, rfl, ?_⟩
  cases h : localpooling_filter_st σ0 0 true with
  | none => trivial
  | some p => exact claim_C8 σ0 0 true Nat.one_pos p h

end

end Spektral
